import Mathlib

/-!
Shallow embedding of `cobsea_libs::CircularArray` from
`src/cobsea_libs/circular_array.h`, together with proofs about its
growth policy, ring-index arithmetic and deque operations.

The C++ object state `(data_array_, head_, tail_, size_, capacity_)` is
modelled as a record.  The raw owned array `ValueType*` becomes an
`Option (List α)` (`none` models the null pointer of the default
constructor and of a moved-from object).  `size_t` values are modelled
as `Nat`; the one place where `size_t` underflow can actually occur
(`_capacity - 1` / `other.size_ - 1` in the fill and copy constructors)
is modelled with an explicit wrap modulo `2 ^ 64`.
-/

namespace CobseaLibs

structure CircularArray (α : Type) where
  data_array : Option (List α)
  head : Nat
  tail : Nat
  size : Nat
  capacity : Nat

namespace CircularArray

variable {α : Type} [Inhabited α]

/-- The backing store viewed as a list; the null pointer reads as `[]`. -/
def storeOf (s : CircularArray α) : List α :=
  s.data_array.getD []

/-- `data_array_[k]`: read of a physical slot. -/
def readPhys (s : CircularArray α) (k : Nat) : α :=
  (storeOf s).getD k default

/-- `data_array_[k] = v`: write of a physical slot. -/
def writePhys (s : CircularArray α) (k : Nat) (v : α) : CircularArray α :=
  { s with data_array := s.data_array.map (fun l => l.set k v) }

/-- `operator[](i)`: `data_array_[(head_ + i) % capacity_]`. -/
def getAt (s : CircularArray α) (i : Nat) : α :=
  readPhys s ((s.head + i) % s.capacity)

/-- The logical window `[0, size)` read through `operator[]`. -/
def logicalSeq (s : CircularArray α) : List α :=
  (List.range s.size).map (getAt s)

/-- `n - 1` on `size_t`: wraps at zero. -/
def pred64 (n : Nat) : Nat :=
  (n + (2 ^ 64 - 1)) % 2 ^ 64

/-- Default constructor: null store, all counters zero. -/
def mkDefault : CircularArray α :=
  ⟨none, 0, 0, 0, 0⟩

/-- `CircularArray(size_t _capacity)`: allocates `_capacity`
default-initialised slots, logically empty. -/
def mkSized (c : Nat) : CircularArray α :=
  ⟨some (List.replicate c default), 0, 0, 0, c⟩

/-- `CircularArray(size_t _capacity, ValueType _val)`: allocates
`_capacity` slots and assigns `_val` to each; `tail_` is initialised to
`_capacity - 1` (a `size_t` subtraction). -/
def mkFill (c : Nat) (v : α) : CircularArray α :=
  ⟨some (List.replicate c v), 0, pred64 c, c, c⟩

/-- Copy constructor: allocates `other.size_` slots, copies `other[i]`
into slot `i`; `head_ = 0`, `tail_ = other.size_ - 1`,
`size_ = capacity_ = other.size_`. -/
def mkCopy (s : CircularArray α) : CircularArray α :=
  ⟨some ((List.range s.size).map (getAt s)), 0, pred64 s.size, s.size, s.size⟩

/-- Move constructor, destination: takes every field of the source. -/
def moveDest (s : CircularArray α) : CircularArray α :=
  s

/-- Move constructor, effect on the source: `data_array_ = nullptr`,
`size_ = 0`, `capacity_ = 0` (`head_`/`tail_` untouched). -/
def movedFrom (s : CircularArray α) : CircularArray α :=
  { s with data_array := none, size := 0, capacity := 0 }

/-- The destructor runs `delete[]` iff `data_array_ != nullptr`. -/
def destructorFrees (s : CircularArray α) : Bool :=
  s.data_array.isSome

/-- `ExtandArray`: if `capacity_ == 0` it is first set to `1`; a fresh
array of `capacity_ * 2` default-initialised slots is allocated and
slot `i < size_` receives `data_array_[(head_ + i) % capacity_]`; then
`head_ = 0`, `tail_ = size_`, `capacity_ *= 2`. -/
def ExtandArray (s : CircularArray α) : CircularArray α :=
  let cap1 := if s.capacity = 0 then 1 else s.capacity
  let newArr := (List.range (cap1 * 2)).map
    (fun i => if i < s.size then readPhys s ((s.head + i) % cap1) else default)
  ⟨some newArr, 0, s.size, s.size, cap1 * 2⟩

/-- The `if (size_ == capacity_) ExtandArray();` prologue shared by
`PushFront`, `PushBack` and `InsertAt`. -/
def growIfFull (s : CircularArray α) : CircularArray α :=
  if s.size = s.capacity then ExtandArray s else s

/-- Body of `PushBack` after the growth check: write at `tail_`,
advance `tail_` modulo `capacity_`, increment `size_`. -/
def pushBackCore (v : α) (u : CircularArray α) : CircularArray α :=
  let s2 := writePhys u u.tail v
  { s2 with tail := (s2.tail + 1) % s2.capacity, size := s2.size + 1 }

def PushBack (v : α) (s : CircularArray α) : CircularArray α :=
  pushBackCore v (growIfFull s)

/-- Body of `PushFront` after the growth check: retreat `head_` (with
wrap at zero), write at the new `head_`, increment `size_`. -/
def pushFrontCore (v : α) (u : CircularArray α) : CircularArray α :=
  let h := if u.head = 0 then u.capacity - 1 else u.head - 1
  let s2 := writePhys { u with head := h } h v
  { s2 with size := s2.size + 1 }

def PushFront (v : α) (s : CircularArray α) : CircularArray α :=
  pushFrontCore v (growIfFull s)

/-- `PopFront`: `head_ = (head_ + 1) % capacity_; size_--`. -/
def PopFront (s : CircularArray α) : CircularArray α :=
  { s with head := (s.head + 1) % s.capacity, size := s.size - 1 }

/-- `PopBack`: retreat `tail_` (with wrap at zero), decrement `size_`. -/
def PopBack (s : CircularArray α) : CircularArray α :=
  { s with tail := if s.tail = 0 then s.capacity - 1 else s.tail - 1,
           size := s.size - 1 }

/-- `Front()`: `data_array_[head_]`. -/
def Front (s : CircularArray α) : α :=
  readPhys s s.head

/-- `Back()`: `data_array_[tail_ != 0 ? tail_ - 1 : capacity_ - 1]`. -/
def Back (s : CircularArray α) : α :=
  readPhys s (if s.tail ≠ 0 then s.tail - 1 else s.capacity - 1)

def Size (s : CircularArray α) : Nat :=
  s.size

def Capacity (s : CircularArray α) : Nat :=
  s.capacity

def Empty (s : CircularArray α) : Bool :=
  s.size == 0

/-- The descending loop of `InsertAt`:
`for (i = size_; i > _pos; i--) data_array_[(head_+i) % capacity_] = (*this)[i-1];`
modelled with the remaining iteration count `n` (the call in `InsertAt`
uses `n = size_ - _pos`, so the first iteration is `i = size_`). -/
def insertLoop (pos : Nat) : Nat → CircularArray α → CircularArray α
  | 0, s => s
  | n + 1, s =>
      insertLoop pos n
        (writePhys s ((s.head + (pos + n + 1)) % s.capacity) (getAt s (pos + n)))

/-- Body of `InsertAt` after the growth check: run the shift loop,
write `_val` at `(head_ + _pos) % capacity_`, advance `tail_`,
increment `size_`. -/
def insertAtCore (v : α) (pos : Nat) (u : CircularArray α) : CircularArray α :=
  let s2 := insertLoop pos (u.size - pos) u
  let s3 := writePhys s2 ((s2.head + pos) % s2.capacity) v
  { s3 with tail := (s3.tail + 1) % s3.capacity, size := s3.size + 1 }

def InsertAt (v : α) (pos : Nat) (s : CircularArray α) : CircularArray α :=
  insertAtCore v pos (growIfFull s)

/-- The ascending loop of `RemoveAt`:
`for (i = _pos; i < size_; i++) data_array_[(head_+i) % capacity_] = (*this)[i+1];`
with current index `i` and remaining iteration count `n`. -/
def removeLoop : Nat → Nat → CircularArray α → CircularArray α
  | _, 0, s => s
  | i, n + 1, s =>
      removeLoop (i + 1) n
        (writePhys s ((s.head + i) % s.capacity) (getAt s (i + 1)))

def RemoveAt (pos : Nat) (s : CircularArray α) : CircularArray α :=
  PopBack (removeLoop pos (s.size - pos) s)

/-- Representation invariant of the container (established by the
default and sized constructors and preserved by every operation; the
fill and copy constructors violate the `tail` clause, see below). -/
@[reducible] def wf (s : CircularArray α) : Prop :=
  s.size ≤ s.capacity ∧
  (storeOf s).length = s.capacity ∧
  (0 < s.capacity →
    s.data_array.isSome = true ∧
    s.head < s.capacity ∧
    s.tail = (s.head + s.size) % s.capacity) ∧
  (s.capacity = 0 → s.size = 0 ∧ s.head = 0 ∧ s.tail = 0)


/-- `PushBack` of each value of `vs` in order. -/
def pushBackAll (s : CircularArray α) (vs : List α) : CircularArray α :=
  vs.foldl (fun t v => PushBack v t) s

/-- `PushFront` of each value of `vs` in order. -/
def pushFrontAll (s : CircularArray α) (vs : List α) : CircularArray α :=
  vs.foldl (fun t v => PushFront v t) s

/-- Read `Front()` then `PopFront()`, `n` times. -/
def drainFront : Nat → CircularArray α → List α
  | 0, _ => []
  | n + 1, s => Front s :: drainFront n (PopFront s)

/-- Read `Back()` then `PopBack()`, `n` times. -/
def drainBack : Nat → CircularArray α → List α
  | 0, _ => []
  | n + 1, s => Back s :: drainBack n (PopBack s)

end CircularArray

namespace CircularArray

/-- The mutating operations of the public API. -/
inductive Op (α : Type) where
  | pushFront : α → Op α
  | pushBack : α → Op α
  | popFront : Op α
  | popBack : Op α
  | insertAt : α → Nat → Op α
  | removeAt : Nat → Op α

variable {α : Type} [Inhabited α]

def applyOp : Op α → CircularArray α → CircularArray α
  | Op.pushFront v, s => PushFront v s
  | Op.pushBack v, s => PushBack v s
  | Op.popFront, s => PopFront s
  | Op.popBack, s => PopBack s
  | Op.insertAt v pos, s => InsertAt v pos s
  | Op.removeAt pos, s => RemoveAt pos s

/-- The documented precondition of each operation (pushes have none). -/
@[reducible] def opPre : Op α → CircularArray α → Prop
  | Op.pushFront _, _ => True
  | Op.pushBack _, _ => True
  | Op.popFront, s => 0 < s.size
  | Op.popBack, s => 0 < s.size
  | Op.insertAt _ pos, s => pos ≤ s.size
  | Op.removeAt pos, s => pos < s.size

def runOps : List (Op α) → CircularArray α → CircularArray α
  | [], s => s
  | op :: ops, s => runOps ops (applyOp op s)

/-- Every operation of the list is applied in a state satisfying its
precondition. -/
@[reducible] def presOk : List (Op α) → CircularArray α → Prop
  | [], _ => True
  | op :: ops, s => opPre op s ∧ presOk ops (applyOp op s)

/-- The states produced by the constructors (for the move destination,
from any source whose size does not exceed its capacity). -/
inductive IsCtorState : CircularArray α → Prop
  | default_ctor : IsCtorState mkDefault
  | sized (c : Nat) : IsCtorState (mkSized c)
  | fill (c : Nat) (v : α) : IsCtorState (mkFill c v)
  | copy (s : CircularArray α) : IsCtorState (mkCopy s)
  | moved_src (s : CircularArray α) : IsCtorState (movedFrom s)
  | moved_dest (s : CircularArray α) (h : s.size ≤ s.capacity) :
      IsCtorState (moveDest s)

/-- Concrete state holding `[1, 2]`: two values pushed into a
default-constructed container (head 0, tail 0, size 2, capacity 2). -/
def twoState : CircularArray Int :=
  PushBack 2 (PushBack 1 mkDefault)

/-- Concrete state holding `[2]` with a nonzero head: `[1, 2]` pushed
into a default-constructed container, then one front pop
(head 1, tail 0, size 1, capacity 2). -/
def headOneState : CircularArray Int :=
  PopFront (PushBack 2 (PushBack 1 mkDefault))

end CircularArray

/-! ### List and modular-arithmetic helpers -/

theorem getD_set_same {β : Type} : ∀ (l : List β) (k : Nat) (v d : β),
    k < l.length → (l.set k v).getD k d = v
  | [], k, _, _, h => absurd h (by simp)
  | _ :: _, 0, _, _, _ => rfl
  | _ :: l, k + 1, v, d, h => getD_set_same l k v d (Nat.lt_of_succ_lt_succ h)

theorem getD_set_other {β : Type} : ∀ (l : List β) (k j : Nat) (v d : β),
    j ≠ k → (l.set k v).getD j d = l.getD j d
  | [], _, _, _, _, _ => rfl
  | _ :: _, 0, 0, _, _, h => absurd rfl h
  | _ :: _, 0, _ + 1, _, _, _ => rfl
  | _ :: _, _ + 1, 0, _, _, _ => rfl
  | _ :: l, k + 1, j + 1, v, d, h =>
      getD_set_other l k j v d (fun e => h (by rw [e]))

theorem getD_map_range {β : Type} (n i : Nat) (f : Nat → β) (d : β) (h : i < n) :
    ((List.range n).map f).getD i d = f i := by
  rw [List.getD_eq_getElem?_getD, List.getElem?_eq_getElem (by simpa using h)]
  simp

/-- Ring slots of distinct in-range logical offsets are distinct. -/
theorem slot_inj (h a b c : Nat) (ha : a < c) (hb : b < c)
    (e : (h + a) % c = (h + b) % c) : a = b := by
  have hmod : h + a ≡ h + b [MOD c] := e
  have := Nat.ModEq.add_left_cancel' h hmod
  have ea : a % c = b % c := this
  rwa [Nat.mod_eq_of_lt ha, Nat.mod_eq_of_lt hb] at ea

namespace CircularArray

variable {α : Type} [Inhabited α]

@[simp] theorem writePhys_head (s : CircularArray α) (k : Nat) (v : α) :
    (writePhys s k v).head = s.head := rfl

@[simp] theorem writePhys_tail (s : CircularArray α) (k : Nat) (v : α) :
    (writePhys s k v).tail = s.tail := rfl

@[simp] theorem writePhys_size (s : CircularArray α) (k : Nat) (v : α) :
    (writePhys s k v).size = s.size := rfl

@[simp] theorem writePhys_capacity (s : CircularArray α) (k : Nat) (v : α) :
    (writePhys s k v).capacity = s.capacity := rfl

@[simp] theorem storeOf_writePhys (s : CircularArray α) (k : Nat) (v : α) :
    storeOf (writePhys s k v) = (storeOf s).set k v := by
  cases hd : s.data_array with
  | none => simp [writePhys, storeOf, hd]
  | some l => simp [writePhys, storeOf, hd]

@[simp] theorem writePhys_isSome (s : CircularArray α) (k : Nat) (v : α) :
    (writePhys s k v).data_array.isSome = s.data_array.isSome := by
  cases hd : s.data_array <;> simp [writePhys, hd]

theorem length_storeOf_writePhys (s : CircularArray α) (k : Nat) (v : α) :
    (storeOf (writePhys s k v)).length = (storeOf s).length := by
  simp

/-- Reading back through `operator[]` after a write at the slot of
logical offset `i`: the ring-slot map is injective on `[0, capacity)`. -/
theorem getAt_writePhys_slot (s : CircularArray α) (i k : Nat) (v : α)
    (hlen : (storeOf s).length = s.capacity)
    (hi : i < s.capacity) (hk : k < s.capacity) :
    getAt (writePhys s ((s.head + i) % s.capacity) v) k =
      if k = i then v else getAt s k := by
  have hpos : 0 < s.capacity := Nat.lt_of_le_of_lt (Nat.zero_le i) hi
  by_cases hki : k = i
  · subst hki
    simp only [if_pos rfl, getAt, readPhys, storeOf_writePhys, writePhys_head,
      writePhys_capacity]
    exact getD_set_same _ _ _ _ (by rw [hlen]; exact Nat.mod_lt _ hpos)
  · simp only [if_neg hki, getAt, readPhys, storeOf_writePhys, writePhys_head,
      writePhys_capacity]
    refine getD_set_other _ _ _ _ _ (fun e => hki ?_)
    exact slot_inj s.head k i s.capacity hk hi e

/-! ### Facts about `logicalSeq` -/

theorem logicalSeq_length (s : CircularArray α) : (logicalSeq s).length = s.size := by
  simp [logicalSeq]

theorem logicalSeq_congr (s t : CircularArray α) (hsize : t.size = s.size)
    (h : ∀ i, i < s.size → getAt t i = getAt s i) : logicalSeq t = logicalSeq s := by
  unfold logicalSeq
  rw [hsize]
  exact List.map_congr_left (fun i hi => h i (List.mem_range.mp hi))

theorem getAt_eq_getD_logicalSeq (s : CircularArray α) (i : Nat) (hi : i < s.size) :
    getAt s i = (logicalSeq s).getD i default := by
  rw [logicalSeq, getD_map_range _ _ _ _ hi]

/-! ### Facts about `ExtandArray` and the growth prologue -/

@[simp] theorem ExtandArray_head (s : CircularArray α) : (ExtandArray s).head = 0 := rfl

@[simp] theorem ExtandArray_tail (s : CircularArray α) : (ExtandArray s).tail = s.size := rfl

@[simp] theorem ExtandArray_size (s : CircularArray α) : (ExtandArray s).size = s.size := rfl

theorem ExtandArray_capacity (s : CircularArray α) :
    (ExtandArray s).capacity = (if s.capacity = 0 then 1 else s.capacity) * 2 := rfl

/-- The capacity after growth, as a closed formula. -/
theorem ExtandArray_capacity_eq (s : CircularArray α) :
    (ExtandArray s).capacity = 2 * max 1 s.capacity := by
  rw [ExtandArray_capacity]
  by_cases h : s.capacity = 0
  · simp [h]
  · have h1 : max 1 s.capacity = s.capacity := Nat.max_eq_right (Nat.one_le_iff_ne_zero.mpr h)
    rw [if_neg h, h1, Nat.mul_comm]

theorem ExtandArray_length (s : CircularArray α) :
    (storeOf (ExtandArray s)).length = (ExtandArray s).capacity := by
  simp [ExtandArray, storeOf]

theorem ExtandArray_isSome (s : CircularArray α) :
    (ExtandArray s).data_array.isSome = true := rfl

theorem capacity_lt_ExtandArray_capacity (s : CircularArray α) :
    s.capacity < (ExtandArray s).capacity := by
  rw [ExtandArray_capacity_eq]
  rcases Nat.eq_zero_or_pos s.capacity with h | h
  · simp [h]
  · calc s.capacity < 2 * s.capacity := by omega
      _ ≤ 2 * max 1 s.capacity := by
          exact Nat.mul_le_mul_left 2 (Nat.le_max_right 1 s.capacity)

/-- The copied window: physical slot `i < size` of the new store holds
the old logical element `i`. -/
theorem ExtandArray_readPhys (s : CircularArray α) (hcap : 0 < s.capacity)
    (hsc : s.size ≤ s.capacity) (i : Nat) (hi : i < s.size) :
    readPhys (ExtandArray s) i = getAt s i := by
  have hne : ¬ s.capacity = 0 := Nat.pos_iff_ne_zero.mp hcap
  have hlt : i < s.capacity * 2 := by omega
  simp only [ExtandArray, readPhys, storeOf, if_neg hne, Option.getD_some]
  rw [getD_map_range _ _ _ _ hlt, if_pos hi]
  rfl

theorem ExtandArray_getAt (s : CircularArray α) (hcap : 0 < s.capacity)
    (hsc : s.size ≤ s.capacity) (i : Nat) (hi : i < s.size) :
    getAt (ExtandArray s) i = getAt s i := by
  have hne : ¬ s.capacity = 0 := Nat.pos_iff_ne_zero.mp hcap
  have hlt : i < (ExtandArray s).capacity := by
    rw [ExtandArray_capacity, if_neg hne]; omega
  have hmod : ((ExtandArray s).head + i) % (ExtandArray s).capacity = i := by
    rw [ExtandArray_head, Nat.zero_add, Nat.mod_eq_of_lt hlt]
  rw [getAt, hmod]
  exact ExtandArray_readPhys s hcap hsc i hi

theorem ExtandArray_logicalSeq (s : CircularArray α) (hwf : wf s) :
    logicalSeq (ExtandArray s) = logicalSeq s := by
  rcases Nat.eq_zero_or_pos s.capacity with h | h
  · have hsz : s.size = 0 := (hwf.2.2.2 h).1
    unfold logicalSeq
    rw [ExtandArray_size, hsz]
    rfl
  · exact logicalSeq_congr s (ExtandArray s) (ExtandArray_size s)
      (fun i hi => ExtandArray_getAt s h hwf.1 i hi)

theorem ExtandArray_wf (s : CircularArray α) (hwf : wf s) : wf (ExtandArray s) := by
  have hszlt : s.size < (ExtandArray s).capacity :=
    Nat.lt_of_le_of_lt hwf.1 (capacity_lt_ExtandArray_capacity s)
  have hcap : 0 < (ExtandArray s).capacity :=
    Nat.lt_of_le_of_lt (Nat.zero_le _) (capacity_lt_ExtandArray_capacity s)
  refine ⟨Nat.le_of_lt hszlt, ExtandArray_length s, fun _ => ?_, fun h0 => ?_⟩
  · refine ⟨ExtandArray_isSome s, hcap, ?_⟩
    rw [ExtandArray_tail, ExtandArray_head, ExtandArray_size, Nat.zero_add,
      Nat.mod_eq_of_lt hszlt]
  · exact absurd h0 (Nat.pos_iff_ne_zero.mp hcap)

theorem ExtandArray_size_lt (s : CircularArray α) (hwf : wf s) :
    (ExtandArray s).size < (ExtandArray s).capacity := by
  rw [ExtandArray_size]
  exact Nat.lt_of_le_of_lt hwf.1 (capacity_lt_ExtandArray_capacity s)

/-- After the shared growth prologue the container is well-formed, not
full, and holds the same logical sequence. -/
theorem growIfFull_spec (s : CircularArray α) (hwf : wf s) :
    wf (growIfFull s) ∧ (growIfFull s).size = s.size ∧
      (growIfFull s).size < (growIfFull s).capacity ∧
      logicalSeq (growIfFull s) = logicalSeq s := by
  unfold growIfFull
  by_cases h : s.size = s.capacity
  · rw [if_pos h]
    exact ⟨ExtandArray_wf s hwf, ExtandArray_size s, ExtandArray_size_lt s hwf,
      ExtandArray_logicalSeq s hwf⟩
  · rw [if_neg h]
    exact ⟨hwf, rfl, Nat.lt_of_le_of_ne hwf.1 h, rfl⟩

theorem getAt_def (s : CircularArray α) (k : Nat) :
    getAt s k = (storeOf s).getD ((s.head + k) % s.capacity) default := rfl

theorem getAt_eq_of_fields (s t : CircularArray α)
    (hd : t.data_array = s.data_array) (hh : t.head = s.head)
    (hc : t.capacity = s.capacity) (k : Nat) : getAt t k = getAt s k := by
  simp [getAt, readPhys, storeOf, hd, hh, hc]

theorem mod_shift (a b c n : Nat) (h : a % n = b) :
    (a + c) % n = (b + c) % n := by
  rw [← Nat.mod_add_mod, h]

/-! ### `PushBack` -/

theorem pushBackCore_spec (u : CircularArray α) (v : α)
    (hwf : wf u) (hlt : u.size < u.capacity) :
    wf (pushBackCore v u) ∧
      logicalSeq (pushBackCore v u) = logicalSeq u ++ [v] := by
  have hpos : 0 < u.capacity := Nat.lt_of_le_of_lt (Nat.zero_le _) hlt
  obtain ⟨hsc, hlen, hc, -⟩ := hwf
  obtain ⟨hsome, hhead, htail⟩ := hc hpos
  have hget : ∀ k, k < u.capacity →
      getAt (pushBackCore v u) k = if k = u.size then v else getAt u k := by
    intro k hk
    have he : getAt (pushBackCore v u) k =
        getAt (writePhys u ((u.head + u.size) % u.capacity) v) k := by
      refine getAt_eq_of_fields (writePhys u ((u.head + u.size) % u.capacity) v)
        (pushBackCore v u) ?_ rfl rfl k
      show (writePhys u u.tail v).data_array = _
      rw [htail]
    rw [he, getAt_writePhys_slot u u.size k v hlen hlt hk]
  have hstore : storeOf (pushBackCore v u) = (storeOf u).set u.tail v := by
    show storeOf (writePhys u u.tail v) = _
    exact storeOf_writePhys u u.tail v
  constructor
  · refine ⟨hlt, ?_, fun _ => ⟨?_, hhead, ?_⟩,
      fun hz => absurd hz (Nat.pos_iff_ne_zero.mp hpos)⟩
    · rw [hstore, List.length_set]
      exact hlen
    · show (writePhys u u.tail v).data_array.isSome = true
      rw [writePhys_isSome]
      exact hsome
    · show (u.tail + 1) % u.capacity = (u.head + (u.size + 1)) % u.capacity
      rw [htail, Nat.mod_add_mod, Nat.add_assoc]
  · show List.map (getAt (pushBackCore v u)) (List.range (u.size + 1)) =
      List.map (getAt u) (List.range u.size) ++ [v]
    rw [List.range_succ, List.map_append]
    have h1 : List.map (getAt (pushBackCore v u)) (List.range u.size) =
        List.map (getAt u) (List.range u.size) :=
      List.map_congr_left (fun i hi => by
        have hi' : i < u.size := List.mem_range.mp hi
        rw [hget i (Nat.lt_trans hi' hlt), if_neg (Nat.ne_of_lt hi')])
    have h2 : List.map (getAt (pushBackCore v u)) [u.size] = [v] := by
      show [getAt (pushBackCore v u) u.size] = [v]
      rw [hget u.size hlt, if_pos rfl]
    rw [h1, h2]

theorem PushBack_spec (s : CircularArray α) (v : α) (hwf : wf s) :
    wf (PushBack v s) ∧ logicalSeq (PushBack v s) = logicalSeq s ++ [v] := by
  obtain ⟨hwf1, -, hlt1, hseq1⟩ := growIfFull_spec s hwf
  obtain ⟨h1, h2⟩ := pushBackCore_spec (growIfFull s) v hwf1 hlt1
  exact ⟨h1, by rw [PushBack, h2, hseq1]⟩

/-! ### `PushFront` -/

theorem pushFrontCore_spec (u : CircularArray α) (v : α)
    (hwf : wf u) (hlt : u.size < u.capacity) :
    wf (pushFrontCore v u) ∧
      logicalSeq (pushFrontCore v u) = v :: logicalSeq u := by
  have hpos : 0 < u.capacity := Nat.lt_of_le_of_lt (Nat.zero_le _) hlt
  obtain ⟨hsc, hlen, hc, -⟩ := hwf
  obtain ⟨hsome, hhead, htail⟩ := hc hpos
  obtain ⟨h0, hh0⟩ : ∃ x, (if u.head = 0 then u.capacity - 1 else u.head - 1) = x :=
    ⟨_, rfl⟩
  have hh0lt : h0 < u.capacity := by
    rw [← hh0]
    by_cases hz : u.head = 0
    · rw [if_pos hz]; omega
    · rw [if_neg hz]; omega
  have hsucc : (h0 + 1) % u.capacity = u.head := by
    rw [← hh0]
    by_cases hz : u.head = 0
    · rw [if_pos hz, Nat.sub_add_cancel hpos, Nat.mod_self, hz]
    · rw [if_neg hz, Nat.sub_add_cancel (Nat.one_le_iff_ne_zero.mpr hz),
        Nat.mod_eq_of_lt hhead]
  have hhead' : (pushFrontCore v u).head = h0 := by
    show (if u.head = 0 then u.capacity - 1 else u.head - 1) = h0
    exact hh0
  have hcap' : (pushFrontCore v u).capacity = u.capacity := rfl
  have hsize' : (pushFrontCore v u).size = u.size + 1 := rfl
  have htail' : (pushFrontCore v u).tail = u.tail := rfl
  have hstore : storeOf (pushFrontCore v u) = (storeOf u).set h0 v := by
    rw [← hh0]
    show storeOf (writePhys
      { u with head := (if u.head = 0 then u.capacity - 1 else u.head - 1) }
      (if u.head = 0 then u.capacity - 1 else u.head - 1) v) = _
    rw [storeOf_writePhys]
    rfl
  have hsome' : (pushFrontCore v u).data_array.isSome = true := by
    obtain ⟨l, hl⟩ := Option.isSome_iff_exists.mp hsome
    show (u.data_array.map
      (fun x => x.set (if u.head = 0 then u.capacity - 1 else u.head - 1) v)).isSome = true
    rw [hl]
    rfl
  have hget0 : getAt (pushFrontCore v u) 0 = v := by
    rw [getAt_def, hstore, hhead', hcap', Nat.add_zero, Nat.mod_eq_of_lt hh0lt]
    exact getD_set_same _ _ _ _ (by rw [hlen]; exact hh0lt)
  have hgetS : ∀ i, i < u.size → getAt (pushFrontCore v u) (i + 1) = getAt u i := by
    intro i hi
    have hislot : (h0 + (i + 1)) % u.capacity = (u.head + i) % u.capacity := by
      rw [show h0 + (i + 1) = h0 + 1 + i by omega]
      exact mod_shift (h0 + 1) u.head i u.capacity hsucc
    have hne : (u.head + i) % u.capacity ≠ h0 := by
      intro e
      have e2 : (h0 + (i + 1)) % u.capacity = (h0 + 0) % u.capacity := by
        rw [hislot, e, Nat.add_zero, Nat.mod_eq_of_lt hh0lt]
      have h3 := slot_inj h0 (i + 1) 0 u.capacity (by omega) hpos e2
      omega
    rw [getAt_def, hstore, hhead', hcap', hislot, getD_set_other _ _ _ _ _ hne]
    exact (getAt_def u i).symm
  constructor
  · refine ⟨?_, ?_, fun _ => ⟨hsome', ?_, ?_⟩,
      fun hz => absurd hz (Nat.pos_iff_ne_zero.mp hpos)⟩
    · show u.size + 1 ≤ u.capacity
      omega
    · rw [hstore, List.length_set]
      exact hlen
    · rw [hhead']
      exact hh0lt
    · rw [htail', hhead', hsize', hcap', htail,
        show h0 + (u.size + 1) = h0 + 1 + u.size by omega]
      exact (mod_shift (h0 + 1) u.head u.size u.capacity hsucc).symm
  · show List.map (getAt (pushFrontCore v u)) (List.range (u.size + 1)) =
      v :: List.map (getAt u) (List.range u.size)
    rw [List.range_succ_eq_map, List.map_cons, List.map_map]
    have h1 : List.map (getAt (pushFrontCore v u) ∘ Nat.succ) (List.range u.size) =
        List.map (getAt u) (List.range u.size) :=
      List.map_congr_left (fun i hi => by
        have hi' : i < u.size := List.mem_range.mp hi
        show getAt (pushFrontCore v u) (i + 1) = getAt u i
        exact hgetS i hi')
    rw [h1, hget0]

theorem PushFront_spec (s : CircularArray α) (v : α) (hwf : wf s) :
    wf (PushFront v s) ∧ logicalSeq (PushFront v s) = v :: logicalSeq s := by
  obtain ⟨hwf1, -, hlt1, hseq1⟩ := growIfFull_spec s hwf
  obtain ⟨h1, h2⟩ := pushFrontCore_spec (growIfFull s) v hwf1 hlt1
  exact ⟨h1, by rw [PushFront, h2, hseq1]⟩

/-! ### `Front`, `Back`, `PopFront`, `PopBack` -/

theorem Front_eq_getAt (s : CircularArray α) (hwf : wf s) (hsz : 0 < s.size) :
    Front s = getAt s 0 := by
  have hpos : 0 < s.capacity := Nat.lt_of_lt_of_le hsz hwf.1
  show (storeOf s).getD s.head default = getAt s 0
  rw [getAt_def, Nat.add_zero, Nat.mod_eq_of_lt (hwf.2.2.1 hpos).2.1]

theorem Back_eq_getAt (s : CircularArray α) (hwf : wf s) (hsz : 0 < s.size) :
    Back s = getAt s (s.size - 1) := by
  have hpos : 0 < s.capacity := Nat.lt_of_lt_of_le hsz hwf.1
  obtain ⟨-, -, htail⟩ := hwf.2.2.1 hpos
  have htlt : s.tail < s.capacity := by rw [htail]; exact Nat.mod_lt _ hpos
  have hslot : (if s.tail ≠ 0 then s.tail - 1 else s.capacity - 1) =
      (s.head + (s.size - 1)) % s.capacity := by
    have hstep : (if s.tail ≠ 0 then s.tail - 1 else s.capacity - 1) =
        (s.tail + (s.capacity - 1)) % s.capacity := by
      by_cases hz : s.tail = 0
      · rw [if_neg (not_not_intro hz), hz, Nat.zero_add, Nat.mod_eq_of_lt (by omega)]
      · rw [if_pos hz, show s.tail + (s.capacity - 1) = s.tail - 1 + s.capacity by omega,
          Nat.add_mod_right, Nat.mod_eq_of_lt (by omega)]
    rw [hstep, htail, Nat.mod_add_mod,
      show s.head + s.size + (s.capacity - 1) = s.head + (s.size - 1) + s.capacity by omega,
      Nat.add_mod_right]
  show (storeOf s).getD (if s.tail ≠ 0 then s.tail - 1 else s.capacity - 1) default =
    getAt s (s.size - 1)
  rw [hslot]
  exact (getAt_def s (s.size - 1)).symm

theorem PopFront_spec (s : CircularArray α) (hwf : wf s) (hsz : 0 < s.size) :
    wf (PopFront s) ∧ logicalSeq s = Front s :: logicalSeq (PopFront s) := by
  have hpos : 0 < s.capacity := Nat.lt_of_lt_of_le hsz hwf.1
  have hfront := Front_eq_getAt s hwf hsz
  obtain ⟨hsc, hlen, hc, -⟩ := hwf
  obtain ⟨hsome, hhead, htail⟩ := hc hpos
  have hget : ∀ i, getAt (PopFront s) i = getAt s (i + 1) := by
    intro i
    show (storeOf (PopFront s)).getD
      (((s.head + 1) % s.capacity + i) % s.capacity) default = getAt s (i + 1)
    rw [Nat.mod_add_mod, show s.head + 1 + i = s.head + (i + 1) by omega]
    exact (getAt_def s (i + 1)).symm
  constructor
  · refine ⟨by show s.size - 1 ≤ s.capacity; omega, hlen,
      fun _ => ⟨hsome, Nat.mod_lt _ hpos, ?_⟩,
      fun hz => absurd hz (Nat.pos_iff_ne_zero.mp hpos)⟩
    show s.tail = ((s.head + 1) % s.capacity + (s.size - 1)) % s.capacity
    rw [Nat.mod_add_mod, show s.head + 1 + (s.size - 1) = s.head + s.size by omega, htail]
  · show List.map (getAt s) (List.range s.size) =
      Front s :: List.map (getAt (PopFront s)) (List.range (s.size - 1))
    obtain ⟨m, hm⟩ : ∃ m, s.size = m + 1 := ⟨s.size - 1, by omega⟩
    rw [hm, Nat.add_sub_cancel, List.range_succ_eq_map, List.map_cons, List.map_map]
    have hh : getAt s 0 = Front s := hfront.symm
    have ht : List.map (getAt s ∘ Nat.succ) (List.range m) =
        List.map (getAt (PopFront s)) (List.range m) :=
      List.map_congr_left (fun i _ => by
        show getAt s (i + 1) = getAt (PopFront s) i
        exact (hget i).symm)
    rw [hh, ht]

theorem PopBack_spec (s : CircularArray α) (hwf : wf s) (hsz : 0 < s.size) :
    wf (PopBack s) ∧ logicalSeq s = logicalSeq (PopBack s) ++ [Back s] := by
  have hpos : 0 < s.capacity := Nat.lt_of_lt_of_le hsz hwf.1
  have hback := Back_eq_getAt s hwf hsz
  obtain ⟨hsc, hlen, hc, -⟩ := hwf
  obtain ⟨hsome, hhead, htail⟩ := hc hpos
  have htlt : s.tail < s.capacity := by rw [htail]; exact Nat.mod_lt _ hpos
  have hnewtail : (if s.tail = 0 then s.capacity - 1 else s.tail - 1) =
      (s.head + (s.size - 1)) % s.capacity := by
    have hstep : (if s.tail = 0 then s.capacity - 1 else s.tail - 1) =
        (s.tail + (s.capacity - 1)) % s.capacity := by
      by_cases hz : s.tail = 0
      · rw [if_pos hz, hz, Nat.zero_add, Nat.mod_eq_of_lt (by omega)]
      · rw [if_neg hz, show s.tail + (s.capacity - 1) = s.tail - 1 + s.capacity by omega,
          Nat.add_mod_right, Nat.mod_eq_of_lt (by omega)]
    rw [hstep, htail, Nat.mod_add_mod,
      show s.head + s.size + (s.capacity - 1) = s.head + (s.size - 1) + s.capacity by omega,
      Nat.add_mod_right]
  constructor
  · refine ⟨by show s.size - 1 ≤ s.capacity; omega, hlen,
      fun _ => ⟨hsome, hhead, ?_⟩,
      fun hz => absurd hz (Nat.pos_iff_ne_zero.mp hpos)⟩
    exact hnewtail
  · show List.map (getAt s) (List.range s.size) =
      List.map (getAt (PopBack s)) (List.range (s.size - 1)) ++ [Back s]
    obtain ⟨m, hm⟩ : ∃ m, s.size = m + 1 := ⟨s.size - 1, by omega⟩
    rw [hm, Nat.add_sub_cancel, List.range_succ, List.map_append]
    have ht : List.map (getAt s) (List.range m) =
        List.map (getAt (PopBack s)) (List.range m) :=
      List.map_congr_left (fun i _ => rfl)
    have hh : List.map (getAt s) [m] = [Back s] := by
      show [getAt s m] = [Back s]
      rw [hback, hm, Nat.add_sub_cancel]
    rw [ht, hh]

/-! ### The shift loops of `InsertAt` and `RemoveAt` -/

theorem insertLoop_fields (pos : Nat) : ∀ (n : Nat) (s : CircularArray α),
    (insertLoop pos n s).head = s.head ∧ (insertLoop pos n s).tail = s.tail ∧
    (insertLoop pos n s).size = s.size ∧ (insertLoop pos n s).capacity = s.capacity ∧
    (insertLoop pos n s).data_array.isSome = s.data_array.isSome ∧
    (storeOf (insertLoop pos n s)).length = (storeOf s).length
  | 0, _ => ⟨rfl, rfl, rfl, rfl, rfl, rfl⟩
  | n + 1, s => by
      obtain ⟨f1, f2, f3, f4, f5, f6⟩ := insertLoop_fields pos n
        (writePhys s ((s.head + (pos + n + 1)) % s.capacity) (getAt s (pos + n)))
      refine ⟨?_, ?_, ?_, ?_, ?_, ?_⟩ <;>
        simp only [insertLoop, f1, f2, f3, f4, f5, f6, writePhys_head, writePhys_tail,
          writePhys_size, writePhys_capacity, writePhys_isSome, storeOf_writePhys,
          List.length_set]

/-- After the iterations `i = pos + n, …, pos + 1` of the `InsertAt`
shift loop, logical offsets in `(pos, pos + n]` hold their left
neighbour's old value and all other in-window offsets are untouched. -/
theorem insertLoop_getAt (pos : Nat) : ∀ (n : Nat) (s : CircularArray α),
    (storeOf s).length = s.capacity → s.head < s.capacity →
    pos + n ≤ s.size → s.size < s.capacity →
    ∀ j, j ≤ s.size →
      getAt (insertLoop pos n s) j =
        if pos < j ∧ j ≤ pos + n then getAt s (j - 1) else getAt s j
  | 0, s, _, _, _, _, j, _ => by
      rw [if_neg (by omega)]
      rfl
  | n + 1, s, hlen, hhead, hn, hsz, j, hj => by
      have hwslot := fun (k : Nat) (hk : k < s.capacity) =>
        getAt_writePhys_slot s (pos + n + 1) k (getAt s (pos + n)) hlen (by omega) hk
      have ih := insertLoop_getAt pos n
        (writePhys s ((s.head + (pos + n + 1)) % s.capacity) (getAt s (pos + n)))
        (by rw [storeOf_writePhys, List.length_set, writePhys_capacity]; exact hlen)
        hhead (by simp only [writePhys_size]; omega) hsz j hj
      simp only [insertLoop]
      rw [ih]
      by_cases hA : pos < j ∧ j ≤ pos + n
      · rw [if_pos hA, if_pos (by omega), hwslot (j - 1) (by omega), if_neg (by omega)]
      · by_cases hB : j = pos + n + 1
        · rw [if_neg hA, if_pos (by omega), hwslot j (by omega), if_pos hB, hB,
            Nat.add_sub_cancel]
        · rw [if_neg hA, if_neg (by omega), hwslot j (by omega), if_neg hB]

theorem removeLoop_fields : ∀ (n i : Nat) (s : CircularArray α),
    (removeLoop i n s).head = s.head ∧ (removeLoop i n s).tail = s.tail ∧
    (removeLoop i n s).size = s.size ∧ (removeLoop i n s).capacity = s.capacity ∧
    (removeLoop i n s).data_array.isSome = s.data_array.isSome ∧
    (storeOf (removeLoop i n s)).length = (storeOf s).length
  | 0, _, _ => ⟨rfl, rfl, rfl, rfl, rfl, rfl⟩
  | n + 1, i, s => by
      obtain ⟨f1, f2, f3, f4, f5, f6⟩ := removeLoop_fields n (i + 1)
        (writePhys s ((s.head + i) % s.capacity) (getAt s (i + 1)))
      refine ⟨?_, ?_, ?_, ?_, ?_, ?_⟩ <;>
        simp only [removeLoop, f1, f2, f3, f4, f5, f6, writePhys_head, writePhys_tail,
          writePhys_size, writePhys_capacity, writePhys_isSome, storeOf_writePhys,
          List.length_set]

/-- After the iterations `i, i+1, …, i+n-1` of the `RemoveAt` shift
loop, offsets below `i` are untouched and each offset `j` with
`i ≤ j`, `j + 1 < i + n` holds its right neighbour's old value (the
value finally written at offset `i + n - 1` is dropped by the
subsequent `PopBack` and is not characterised). -/
theorem removeLoop_getAt : ∀ (n i : Nat) (s : CircularArray α),
    (storeOf s).length = s.capacity → s.head < s.capacity →
    i + n ≤ s.size → s.size ≤ s.capacity → ∀ j,
      (j < i → getAt (removeLoop i n s) j = getAt s j) ∧
      (i ≤ j → j + 1 < i + n → getAt (removeLoop i n s) j = getAt s (j + 1))
  | 0, i, s, _, _, _, _, j => by
      constructor
      · intro _
        rfl
      · intro h1 h2
        exact absurd h2 (by omega)
  | n + 1, i, s, hlen, hhead, hin, hsc, j => by
      have hicap : i < s.capacity := by omega
      have hwslot := fun (k : Nat) (hk : k < s.capacity) =>
        getAt_writePhys_slot s i k (getAt s (i + 1)) hlen hicap hk
      have ih := removeLoop_getAt n (i + 1)
        (writePhys s ((s.head + i) % s.capacity) (getAt s (i + 1)))
        (by rw [storeOf_writePhys, List.length_set, writePhys_capacity]; exact hlen)
        hhead (by simp only [writePhys_size]; omega) hsc
      simp only [removeLoop]
      constructor
      · intro hj
        rw [(ih j).1 (by omega), hwslot j (by omega), if_neg (by omega)]
      · intro hj1 hj2
        by_cases hji : j = i
        · subst hji
          rw [(ih j).1 (by omega), hwslot j (by omega), if_pos rfl]
        · rw [(ih j).2 (by omega) (by omega), hwslot (j + 1) (by omega),
            if_neg (by omega)]

/-! ### `InsertAt` and `RemoveAt` -/

theorem insertAtCore_spec (u : CircularArray α) (v : α) (pos : Nat)
    (hwf : wf u) (hlt : u.size < u.capacity) (hpos : pos ≤ u.size) :
    wf (insertAtCore v pos u) ∧ (insertAtCore v pos u).size = u.size + 1 ∧
      ∀ k, k ≤ u.size →
        getAt (insertAtCore v pos u) k =
          if k = pos then v else if pos < k then getAt u (k - 1) else getAt u k := by
  have hcappos : 0 < u.capacity := Nat.lt_of_le_of_lt (Nat.zero_le _) hlt
  obtain ⟨hsc, hulen, hcl, -⟩ := hwf
  obtain ⟨husome, huhead, hutail⟩ := hcl hcappos
  obtain ⟨F1, F2, F3, F4, F5, F6⟩ := insertLoop_fields pos (u.size - pos) u
  have G := fun (j : Nat) (hj : j ≤ u.size) => by
    have hg := insertLoop_getAt pos (u.size - pos) u hulen huhead (by omega) hlt j hj
    rwa [show pos + (u.size - pos) = u.size by omega] at hg
  obtain ⟨m, hm⟩ : ∃ m, insertLoop pos (u.size - pos) u = m := ⟨_, rfl⟩
  rw [hm] at F1 F2 F3 F4 F5 F6 G
  have hcore : insertAtCore v pos u =
      { writePhys m ((m.head + pos) % m.capacity) v with
          tail := (m.tail + 1) % m.capacity, size := m.size + 1 } := by
    rw [← hm]
    rfl
  have hmlen : (storeOf m).length = m.capacity := by rw [F6, F4]; exact hulen
  have hposm : pos < m.capacity := by rw [F4]; omega
  have hst : storeOf ({ writePhys m ((m.head + pos) % m.capacity) v with
      tail := (m.tail + 1) % m.capacity, size := m.size + 1 }) =
      (storeOf m).set ((m.head + pos) % m.capacity) v :=
    storeOf_writePhys m ((m.head + pos) % m.capacity) v
  have hRget : ∀ k, k < m.capacity →
      getAt ({ writePhys m ((m.head + pos) % m.capacity) v with
          tail := (m.tail + 1) % m.capacity, size := m.size + 1 }) k =
        if k = pos then v else getAt m k := by
    intro k hk
    exact getAt_writePhys_slot m pos k v hmlen hposm hk
  rw [hcore]
  refine ⟨⟨?_, ?_, fun _ => ⟨?_, ?_, ?_⟩, fun hz => ?_⟩, ?_, ?_⟩
  · show m.size + 1 ≤ m.capacity
    rw [F3, F4]
    omega
  · rw [hst, List.length_set]
    show (storeOf m).length = m.capacity
    exact hmlen
  · have hs : ({ writePhys m ((m.head + pos) % m.capacity) v with
        tail := (m.tail + 1) % m.capacity,
        size := m.size + 1 }).data_array.isSome = m.data_array.isSome :=
      writePhys_isSome m ((m.head + pos) % m.capacity) v
    rw [hs, F5]
    exact husome
  · show m.head < m.capacity
    rw [F1, F4]
    exact huhead
  · show (m.tail + 1) % m.capacity = (m.head + (m.size + 1)) % m.capacity
    rw [F1, F2, F3, F4, hutail, Nat.mod_add_mod, Nat.add_assoc]
  · have hz' : u.capacity = 0 := by
      rw [← F4]
      exact hz
    exact absurd hz' (Nat.pos_iff_ne_zero.mp hcappos)
  · show m.size + 1 = u.size + 1
    rw [F3]
  · intro k hk
    rw [hRget k (by rw [F4]; omega), G k hk]
    by_cases hkp : k = pos
    · rw [if_pos hkp, if_pos hkp]
    · rw [if_neg hkp, if_neg hkp]
      by_cases hpk : pos < k
      · rw [if_pos (by omega), if_pos hpk]
      · rw [if_neg (by omega), if_neg hpk]

theorem InsertAt_spec (s : CircularArray α) (v : α) (pos : Nat)
    (hwf : wf s) (hpos : pos ≤ s.size) :
    wf (InsertAt v pos s) ∧ (InsertAt v pos s).size = s.size + 1 ∧
      ∀ k, k ≤ s.size →
        getAt (InsertAt v pos s) k =
          if k = pos then v else if pos < k then getAt s (k - 1) else getAt s k := by
  obtain ⟨hwfu, husz, hult, huseq⟩ := growIfFull_spec s hwf
  have hgu : ∀ k, k < s.size → getAt (growIfFull s) k = getAt s k := by
    intro k hk
    rw [getAt_eq_getD_logicalSeq (growIfFull s) k (by rw [husz]; exact hk), huseq,
      ← getAt_eq_getD_logicalSeq s k hk]
  obtain ⟨h1, h2, h3⟩ :=
    insertAtCore_spec (growIfFull s) v pos hwfu hult (by rw [husz]; exact hpos)
  refine ⟨h1, by rw [InsertAt, h2, husz], ?_⟩
  intro k hk
  rw [InsertAt, h3 k (by rw [husz]; exact hk)]
  by_cases hkp : k = pos
  · rw [if_pos hkp, if_pos hkp]
  · rw [if_neg hkp, if_neg hkp]
    by_cases hpk : pos < k
    · rw [if_pos hpk, if_pos hpk, hgu (k - 1) (by omega)]
    · rw [if_neg hpk, if_neg hpk, hgu k (by omega)]

theorem RemoveAt_spec (s : CircularArray α) (pos : Nat)
    (hwf : wf s) (hpos : pos < s.size) :
    wf (RemoveAt pos s) ∧ (RemoveAt pos s).size = s.size - 1 ∧
      ∀ j, j < s.size - 1 →
        getAt (RemoveAt pos s) j =
          if j < pos then getAt s j else getAt s (j + 1) := by
  have hszpos : 0 < s.size := by omega
  have hcappos : 0 < s.capacity := Nat.lt_of_lt_of_le hszpos hwf.1
  obtain ⟨hsc, hslen, hcl, -⟩ := hwf
  obtain ⟨hsome, hhead, htail⟩ := hcl hcappos
  obtain ⟨F1, F2, F3, F4, F5, F6⟩ := removeLoop_fields (s.size - pos) pos s
  have G := removeLoop_getAt (s.size - pos) pos s hslen hhead (by omega) hsc
  obtain ⟨m, hm⟩ : ∃ m, removeLoop pos (s.size - pos) s = m := ⟨_, rfl⟩
  rw [hm] at F1 F2 F3 F4 F5 F6 G
  have hre : RemoveAt pos s = PopBack m := by
    rw [← hm]
    rfl
  have hwfm : wf m := by
    refine ⟨?_, ?_, fun hcp => ?_, fun hz => ?_⟩
    · rw [F3, F4]
      exact hsc
    · rw [F6, F4]
      exact hslen
    · exact ⟨by rw [F5]; exact hsome, by rw [F1, F4]; exact hhead,
        by rw [F2, F1, F3, F4]; exact htail⟩
    · rw [F4] at hz
      exact absurd hz (by omega)
  have hmsz : 0 < m.size := by rw [F3]; exact hszpos
  obtain ⟨hwfp, -⟩ := PopBack_spec m hwfm hmsz
  refine ⟨by rw [hre]; exact hwfp, by rw [hre]; show m.size - 1 = s.size - 1; rw [F3], ?_⟩
  intro j hj
  have hgp : getAt (RemoveAt pos s) j = getAt m j := by
    rw [hre]
    rfl
  rw [hgp]
  by_cases hjp : j < pos
  · rw [if_pos hjp, (G j).1 hjp]
  · rw [if_neg hjp, (G j).2 (by omega) (by omega)]

/-- `InsertAt` then `RemoveAt` at the same position restores the
logical sequence and the size. -/
theorem insert_remove_roundtrip (s : CircularArray α) (v : α) (pos : Nat)
    (hwf : wf s) (hpos : pos ≤ s.size) :
    logicalSeq (RemoveAt pos (InsertAt v pos s)) = logicalSeq s ∧
      (RemoveAt pos (InsertAt v pos s)).size = s.size := by
  obtain ⟨hwf1, hsz1, hget1⟩ := InsertAt_spec s v pos hwf hpos
  obtain ⟨hwf2, hsz2, hget2⟩ := RemoveAt_spec (InsertAt v pos s) pos hwf1 (by omega)
  have hsz : (RemoveAt pos (InsertAt v pos s)).size = s.size := by
    rw [hsz2, hsz1]
    omega
  refine ⟨logicalSeq_congr s (RemoveAt pos (InsertAt v pos s)) hsz ?_, hsz⟩
  intro i hi
  rw [hget2 i (by omega)]
  by_cases hip : i < pos
  · rw [if_pos hip, hget1 i (by omega), if_neg (by omega), if_neg (by omega)]
  · rw [if_neg hip, hget1 (i + 1) (by omega), if_neg (by omega), if_pos (by omega),
      Nat.add_sub_cancel]

/-! ### Constructors -/

theorem mkDefault_wf : wf (mkDefault : CircularArray α) :=
  ⟨Nat.le_refl 0, rfl, fun h => absurd h (Nat.lt_irrefl 0), fun _ => ⟨rfl, rfl, rfl⟩⟩

theorem mkSized_wf (c : Nat) : wf (mkSized c : CircularArray α) := by
  refine ⟨Nat.zero_le c, ?_, fun hc => ⟨rfl, hc, by show (0 : Nat) = (0 + 0) % c; simp⟩,
    fun _ => ⟨rfl, rfl, rfl⟩⟩
  show (List.replicate c (default : α)).length = c
  exact List.length_replicate c default

theorem IsCtorState_size_le (s : CircularArray α) (h : IsCtorState s) :
    s.size ≤ s.capacity := by
  cases h with
  | default_ctor => exact Nat.le_refl 0
  | sized c => exact Nat.zero_le c
  | fill c v => exact Nat.le_refl c
  | copy t => exact Nat.le_refl t.size
  | moved_src t => exact Nat.le_refl 0
  | moved_dest t ht => exact ht

/-! ### `size ≤ capacity` is preserved by every operation -/

theorem growIfFull_size_lt (s : CircularArray α) (h : s.size ≤ s.capacity) :
    (growIfFull s).size < (growIfFull s).capacity := by
  unfold growIfFull
  by_cases he : s.size = s.capacity
  · rw [if_pos he, ExtandArray_size]
    exact Nat.lt_of_le_of_lt h (capacity_lt_ExtandArray_capacity s)
  · rw [if_neg he]
    exact Nat.lt_of_le_of_ne h he

theorem applyOp_size_le (op : Op α) (s : CircularArray α) (h : s.size ≤ s.capacity) :
    (applyOp op s).size ≤ (applyOp op s).capacity := by
  cases op with
  | pushFront v =>
      show (growIfFull s).size + 1 ≤ (growIfFull s).capacity
      exact growIfFull_size_lt s h
  | pushBack v =>
      show (growIfFull s).size + 1 ≤ (growIfFull s).capacity
      exact growIfFull_size_lt s h
  | popFront =>
      show s.size - 1 ≤ s.capacity
      omega
  | popBack =>
      show s.size - 1 ≤ s.capacity
      omega
  | insertAt v pos =>
      obtain ⟨-, -, F3, F4, -, -⟩ :=
        insertLoop_fields pos ((growIfFull s).size - pos) (growIfFull s)
      show (insertLoop pos ((growIfFull s).size - pos) (growIfFull s)).size + 1 ≤
        (insertLoop pos ((growIfFull s).size - pos) (growIfFull s)).capacity
      rw [F3, F4]
      exact growIfFull_size_lt s h
  | removeAt pos =>
      obtain ⟨-, -, F3, F4, -, -⟩ := removeLoop_fields (s.size - pos) pos s
      show (removeLoop pos (s.size - pos) s).size - 1 ≤
        (removeLoop pos (s.size - pos) s).capacity
      rw [F3, F4]
      omega

theorem runOps_size_le (ops : List (Op α)) (s : CircularArray α)
    (h : s.size ≤ s.capacity) :
    (runOps ops s).size ≤ (runOps ops s).capacity := by
  induction ops generalizing s with
  | nil => exact h
  | cons op ops ih => exact ih (applyOp op s) (applyOp_size_le op s h)

/-! ### Folded pushes and drains -/

theorem pushBackAll_spec (vs : List α) : ∀ (s : CircularArray α), wf s →
    wf (pushBackAll s vs) ∧ logicalSeq (pushBackAll s vs) = logicalSeq s ++ vs := by
  induction vs with
  | nil =>
      intro s hwf
      exact ⟨hwf, by simp [pushBackAll]⟩
  | cons v vs ih =>
      intro s hwf
      obtain ⟨h1, h2⟩ := PushBack_spec s v hwf
      obtain ⟨h3, h4⟩ := ih (PushBack v s) h1
      refine ⟨h3, ?_⟩
      show logicalSeq (pushBackAll (PushBack v s) vs) = logicalSeq s ++ v :: vs
      rw [h4, h2, List.append_assoc]
      rfl

theorem pushFrontAll_spec (vs : List α) : ∀ (s : CircularArray α), wf s →
    wf (pushFrontAll s vs) ∧
      logicalSeq (pushFrontAll s vs) = vs.reverse ++ logicalSeq s := by
  induction vs with
  | nil =>
      intro s hwf
      exact ⟨hwf, by simp [pushFrontAll]⟩
  | cons v vs ih =>
      intro s hwf
      obtain ⟨h1, h2⟩ := PushFront_spec s v hwf
      obtain ⟨h3, h4⟩ := ih (PushFront v s) h1
      refine ⟨h3, ?_⟩
      show logicalSeq (pushFrontAll (PushFront v s) vs) = (v :: vs).reverse ++ logicalSeq s
      rw [h4, h2, List.reverse_cons, List.append_assoc]
      rfl

theorem drainFront_spec : ∀ (n : Nat) (s : CircularArray α), wf s → n ≤ s.size →
    drainFront n s = (logicalSeq s).take n
  | 0, s, _, _ => by simp [drainFront]
  | n + 1, s, hwf, hn => by
      have hsz : 0 < s.size := by omega
      obtain ⟨h1, h2⟩ := PopFront_spec s hwf hsz
      have ih := drainFront_spec n (PopFront s) h1 (by show n ≤ s.size - 1; omega)
      show Front s :: drainFront n (PopFront s) = (logicalSeq s).take (n + 1)
      rw [ih, h2, List.take_succ_cons]

theorem drainBack_spec : ∀ (n : Nat) (s : CircularArray α), wf s → n ≤ s.size →
    drainBack n s = (logicalSeq s).reverse.take n
  | 0, s, _, _ => by simp [drainBack]
  | n + 1, s, hwf, hn => by
      have hsz : 0 < s.size := by omega
      obtain ⟨h1, h2⟩ := PopBack_spec s hwf hsz
      have ih := drainBack_spec n (PopBack s) h1 (by show n ≤ s.size - 1; omega)
      show Back s :: drainBack n (PopBack s) = (logicalSeq s).reverse.take (n + 1)
      rw [ih, h2, List.reverse_append, List.reverse_singleton, List.singleton_append,
        List.take_succ_cons]

/-! ### The claims -/

/-- Claim C1, counterexample: when the first insertion into a
default-constructed container (capacity 0) triggers growth, the new
store has capacity 2, not `max(1, 2 × capacity) = 1` as the claim
states. -/
theorem C1_growth_capacity_formula_false :
    (mkDefault : CircularArray Int).size = (mkDefault : CircularArray Int).capacity ∧
    Capacity (PushBack (0 : Int) mkDefault) = 2 ∧
    (ExtandArray (mkDefault : CircularArray Int)).capacity = 2 ∧
    ¬ ((ExtandArray (mkDefault : CircularArray Int)).capacity =
        max 1 (2 * (mkDefault : CircularArray Int).capacity)) := by
  decide

/-- Claim C1 (amended): when an insertion finds `size_ == capacity_`,
`ExtandArray` allocates a new store of capacity `2 * max 1 capacity`
(in particular capacity 2 when the prior capacity was 0), copies the
current logical window into the new store starting at physical index 0
in logical order, sets head to 0, and sets the tail pointer to the
pre-insertion logical size. -/
theorem C1_growth_policy (s : CircularArray α) (hwf : wf s)
    (hfull : s.size = s.capacity) :
    (ExtandArray s).capacity = 2 * max 1 s.capacity ∧
    (storeOf (ExtandArray s)).length = 2 * max 1 s.capacity ∧
    (∀ i, i < s.size → readPhys (ExtandArray s) i = getAt s i) ∧
    (ExtandArray s).head = 0 ∧
    (ExtandArray s).tail = s.size ∧
    (ExtandArray s).size = s.size ∧
    logicalSeq (ExtandArray s) = logicalSeq s := by
  refine ⟨ExtandArray_capacity_eq s, ?_, ?_, rfl, rfl, rfl, ExtandArray_logicalSeq s hwf⟩
  · rw [ExtandArray_length s, ExtandArray_capacity_eq s]
  · intro i hi
    rcases Nat.eq_zero_or_pos s.capacity with h0 | h0
    · exact absurd hi (by have := (hwf.2.2.2 h0).1; omega)
    · exact ExtandArray_readPhys s h0 hwf.1 i hi

theorem C1_growth_policy_witness :
    wf twoState ∧ twoState.size = twoState.capacity ∧
      ((ExtandArray twoState).capacity = 2 * max 1 twoState.capacity ∧
       (storeOf (ExtandArray twoState)).length = 2 * max 1 twoState.capacity ∧
       (∀ i, i < twoState.size → readPhys (ExtandArray twoState) i = getAt twoState i) ∧
       (ExtandArray twoState).head = 0 ∧
       (ExtandArray twoState).tail = twoState.size ∧
       (ExtandArray twoState).size = twoState.size ∧
       logicalSeq (ExtandArray twoState) = logicalSeq twoState) :=
  ⟨by decide, by decide, C1_growth_policy twoState (by decide) (by decide)⟩

/-- Claim C2 is violated by the code: the sized-with-fill constructor
`CircularArray(2, 0)` produces `tail_ = 1` although
`(head_ + size_) mod capacity_ = 0`, and the copy constructor produces
the same off-by-one (`tail_ = size_ - 1` instead of
`(head_ + size_) mod capacity_`). -/
theorem C2_tail_invariant_violated :
    0 < (mkFill 2 (0 : Int)).capacity ∧
    (mkFill 2 (0 : Int)).tail = 1 ∧
    ((mkFill 2 (0 : Int)).head + (mkFill 2 (0 : Int)).size) %
      (mkFill 2 (0 : Int)).capacity = 0 ∧
    0 < (mkCopy twoState).capacity ∧
    (mkCopy twoState).tail = 1 ∧
    ((mkCopy twoState).head + (mkCopy twoState).size) % (mkCopy twoState).capacity = 0 := by
  decide

/-- Claim C3 is violated by the code: on the copy of a container
holding `[1, 2]`, `Back()` reads physical slot `tail_ - 1 = 0` and
returns 1, not the element at logical index `size - 1`, which is 2. -/
theorem C3_back_wrong_on_copy :
    logicalSeq (mkCopy twoState) = [1, 2] ∧
    Size (mkCopy twoState) = 2 ∧
    Back (mkCopy twoState) = 1 ∧
    getAt (mkCopy twoState) (Size (mkCopy twoState) - 1) = 2 := by
  decide

/-- Claim C4: from any well-formed non-empty state (in particular one
with nonzero head after front pops), pushing `capacity + 1` values to
the back yields the prior logical sequence followed by the new values
in order, despite the reallocation during growth. -/
theorem C4_growth_preserves_sequence (s : CircularArray α) (vs : List α)
    (hwf : wf s) (hne : 0 < s.size) (hlen : vs.length = s.capacity + 1) :
    logicalSeq (pushBackAll s vs) = logicalSeq s ++ vs :=
  (pushBackAll_spec vs s hwf).2

theorem C4_growth_preserves_sequence_witness :
    wf headOneState ∧ 0 < headOneState.size ∧
      ([7, 8, 9] : List Int).length = headOneState.capacity + 1 ∧
      logicalSeq (pushBackAll headOneState [7, 8, 9]) =
        logicalSeq headOneState ++ [7, 8, 9] :=
  ⟨by decide, by decide, by decide,
    C4_growth_preserves_sequence headOneState [7, 8, 9] (by decide) (by decide) (by decide)⟩

/-- Claim C5: pushing `vs` to the back of an empty container and
draining via `Front`/`PopFront` returns `vs` in order; pushing `vs` to
the front and draining via `Back`/`PopBack` also returns `vs`. -/
theorem C5_fifo_lifo_roundtrip (s : CircularArray α) (vs : List α)
    (hwf : wf s) (hempty : s.size = 0) :
    drainFront vs.length (pushBackAll s vs) = vs ∧
    drainBack vs.length (pushFrontAll s vs) = vs := by
  have hseq0 : logicalSeq s = [] := by
    unfold logicalSeq
    rw [hempty]
    rfl
  obtain ⟨h1, h2⟩ := pushBackAll_spec vs s hwf
  obtain ⟨h3, h4⟩ := pushFrontAll_spec vs s hwf
  rw [hseq0] at h2 h4
  constructor
  · have hlen2 : vs.length ≤ (pushBackAll s vs).size := by
      have hl := logicalSeq_length (pushBackAll s vs)
      rw [h2] at hl
      simp at hl
      omega
    rw [drainFront_spec vs.length (pushBackAll s vs) h1 hlen2, h2]
    simp
  · have hlen4 : vs.length ≤ (pushFrontAll s vs).size := by
      have hl := logicalSeq_length (pushFrontAll s vs)
      rw [h4] at hl
      simp at hl
      omega
    rw [drainBack_spec vs.length (pushFrontAll s vs) h3 hlen4, h4]
    simp

theorem C5_fifo_lifo_roundtrip_witness :
    wf (mkDefault : CircularArray Int) ∧ (mkDefault : CircularArray Int).size = 0 ∧
      (drainFront ([1, 2, 3] : List Int).length (pushBackAll mkDefault [1, 2, 3]) =
        [1, 2, 3] ∧
       drainBack ([1, 2, 3] : List Int).length (pushFrontAll mkDefault [1, 2, 3]) =
        [1, 2, 3]) :=
  ⟨by decide, rfl, C5_fifo_lifo_roundtrip mkDefault [1, 2, 3] (by decide) rfl⟩

/-- Claim C6: `InsertAt(v, pos)` immediately followed by
`RemoveAt(pos)` leaves the logical sequence and the size unchanged,
for every well-formed state and every `pos ≤ size`. -/
theorem C6_insert_remove_restores (s : CircularArray α) (v : α) (pos : Nat)
    (hwf : wf s) (hpos : pos ≤ s.size) :
    logicalSeq (RemoveAt pos (InsertAt v pos s)) = logicalSeq s ∧
      Size (RemoveAt pos (InsertAt v pos s)) = Size s :=
  insert_remove_roundtrip s v pos hwf hpos

theorem C6_insert_remove_restores_witness :
    wf headOneState ∧ 1 ≤ headOneState.size ∧
      (logicalSeq (RemoveAt 1 (InsertAt 9 1 headOneState)) = logicalSeq headOneState ∧
       Size (RemoveAt 1 (InsertAt 9 1 headOneState)) = Size headOneState) :=
  ⟨by decide, by decide, C6_insert_remove_restores headOneState 9 1 (by decide) (by decide)⟩

/-- Claim C7: starting from any constructor state and applying any
sequence of operations, each under its precondition, `size ≤ capacity`
holds afterwards (every prefix of such a sequence is again such a
sequence, so the invariant holds after every call). -/
theorem C7_size_le_capacity (init : CircularArray α) (hctor : IsCtorState init)
    (ops : List (Op α)) (hpre : presOk ops init) :
    Size (runOps ops init) ≤ Capacity (runOps ops init) :=
  runOps_size_le ops init (IsCtorState_size_le init hctor)

theorem C7_size_le_capacity_witness :
    IsCtorState (mkDefault : CircularArray Int) ∧
    presOk [Op.pushBack (5 : Int), Op.popFront] (mkDefault : CircularArray Int) ∧
    Size (runOps [Op.pushBack (5 : Int), Op.popFront] (mkDefault : CircularArray Int)) ≤
      Capacity (runOps [Op.pushBack (5 : Int), Op.popFront]
        (mkDefault : CircularArray Int)) :=
  ⟨IsCtorState.default_ctor, ⟨trivial, by decide, trivial⟩,
    C7_size_le_capacity mkDefault IsCtorState.default_ctor
      [Op.pushBack (5 : Int), Op.popFront] ⟨trivial, by decide, trivial⟩⟩

/-- Claim C8: copy-construction yields head 0, capacity equal to the
source's current size, and a fresh store holding exactly the source's
logical sequence (hence the same logical sequence); because the copy's
store is a fresh value determined only by the source's window, no
mutation of either container can reach the other's store. -/
theorem C8_copy_ctor (s : CircularArray α) :
    logicalSeq (mkCopy s) = logicalSeq s ∧
    Capacity (mkCopy s) = Size s ∧
    (mkCopy s).head = 0 ∧
    (mkCopy s).data_array = some (logicalSeq s) := by
  refine ⟨?_, rfl, rfl, rfl⟩
  refine logicalSeq_congr s (mkCopy s) rfl ?_
  intro i hi
  show ((List.range s.size).map (getAt s)).getD ((0 + i) % s.size) default = getAt s i
  rw [Nat.zero_add, Nat.mod_eq_of_lt hi, getD_map_range _ _ _ _ hi]

/-- Claim C9: after being moved from, the source reports size 0 and
capacity 0 and holds no backing store (`data_array_ == nullptr`), so
its destructor performs no deallocation. -/
theorem C9_move_empties_source (s : CircularArray α) :
    Size (movedFrom s) = 0 ∧ Capacity (movedFrom s) = 0 ∧
    (movedFrom s).data_array = none ∧ destructorFrees (movedFrom s) = false :=
  ⟨rfl, rfl, rfl, rfl⟩

/-- Claim C10: the first `PushBack` or `PushFront` into a
default-constructed container succeeds with size 1 and capacity 2, and
`Front()`, `Back()` and `operator[](0)` all denote the pushed value. -/
theorem C10_first_push_into_default (v : α) :
    Size (PushBack v (mkDefault : CircularArray α)) = 1 ∧
    Capacity (PushBack v (mkDefault : CircularArray α)) = 2 ∧
    Front (PushBack v (mkDefault : CircularArray α)) = v ∧
    Back (PushBack v (mkDefault : CircularArray α)) = v ∧
    getAt (PushBack v (mkDefault : CircularArray α)) 0 = v ∧
    Size (PushFront v (mkDefault : CircularArray α)) = 1 ∧
    Capacity (PushFront v (mkDefault : CircularArray α)) = 2 ∧
    Front (PushFront v (mkDefault : CircularArray α)) = v ∧
    Back (PushFront v (mkDefault : CircularArray α)) = v ∧
    getAt (PushFront v (mkDefault : CircularArray α)) 0 = v :=
  ⟨rfl, rfl, rfl, rfl, rfl, rfl, rfl, rfl, rfl, rfl⟩

end CircularArray

end CobseaLibs
